import Mathlib

/-!
Verification of `download-github-releases.py`.

A shallow embedding of the synchronization script `download-github-releases.py`
and proofs about its components: the Backoff Retrier (`perform_with_backoff`),
the Paginator (`get_paginated`), the Identity Comparator (the per-asset decision
logic in `main`), the digest routine (`shasum`), the Fetcher (`download_file`),
and the Sync Driver (`main`'s per-repository loop).

Byte strings are modelled as `List Nat`.  The SHA-256 primitive
(`hashlib.sha256(...).hexdigest()`) is an external library function; the
embedding treats it as an explicit parameter `hash : List Nat → String`
(none of the verified properties depend on the internals of SHA-256, only on
the comparator's use of it), with `hashModel` a concrete executable stand-in
used to instantiate witnesses.
-/

/-- Python-level runtime errors the embedded fragments can raise:
`nameErrorListdir` — the `NameError` raised by `shasum`'s directory branch,
whose call to `listdir` refers to a name bound nowhere in the program;
`valueErrorUnpack` — the `ValueError` raised by unpacking
`asset["digest"].split(":")` into two variables when the split does not have
exactly two parts; `httpError` — the `requests.HTTPError` raised by
`response.raise_for_status()`. -/
inductive PyErr where
  | nameErrorListdir
  | valueErrorUnpack
  | httpError (code : Nat)
  deriving DecidableEq

/-- A local artifact on disk: a regular file with its byte content, or a
directory with its children (an association of child filename to entry).
`stSize` carries the inode size that `os.path.getsize` reports for a
directory, which is platform data, not derived from the children. -/
inductive Entry where
  | file (content : List Nat)
  | dir (stSize : Nat) (children : List (String × Entry))

/-- Model of `os.path.getsize`: byte length for a regular file, the inode size for a
directory. -/
def entrySize : Entry → Nat
  | .file content => content.length
  | .dir stSize _ => stSize

/-- Model of the Python string method `split(":")` (used on digest strings at
`digest_kind, digest_value = asset["digest"].split(":")`): split at every
colon, keeping empty parts.  Defined structurally over the character list so
that it evaluates by kernel reduction. -/
def splitColonChars : List Char → List (List Char)
  | [] => [[]]
  | c :: rest =>
    if c = ':' then [] :: splitColonChars rest
    else
      match splitColonChars rest with
      | [] => [[c]]
      | l :: ls => (c :: l) :: ls

/-- The split `s.split(":")` for a Lean `String`. -/
def splitColon (s : String) : List String :=
  (splitColonChars s.data).map (fun l => String.mk l)

/-- Model of the source's `shasum(path)` as it stands in the program.  For a
regular file the function reads the content block-by-block and feeds it to
`hashlib.sha256`, i.e. it returns the digest of the whole content.  For a
directory the source evaluates `sorted(listdir(path, include_hidden=False))`,
but `listdir` is an unqualified name defined nowhere in the program (only the
module `os` is imported, and `listdir` is not a Python builtin), so Python
raises `NameError` before any recursion happens. -/
def shasum (hash : List Nat → String) : Entry → Except PyErr String
  | .file content => .ok (hash content)
  | .dir _ _ => .error .nameErrorListdir

/-- A remote asset descriptor as consumed by `main`: the fields `name`,
`size`, `url` and the optional `digest` string of the form
`<algorithm>:<hex-value>` (`none` models both an absent `digest` key and an
explicit `null`, exactly the condition
`"digest" in asset and asset["digest"] is not None`). -/
structure Asset where
  name : String
  size : Nat
  url : String
  digest : Option String
  deriving DecidableEq

/-- The two ways `main`'s per-asset loop body can end: `skip` models the
`continue` statements (no fetch), `fetch` models reaching the final
`download_file(asset_url, asset_path)` call. -/
inductive AssetAction where
  | skip
  | fetch
  deriving DecidableEq

/-- The Identity Comparator: the decision logic of `main`'s per-asset loop
body, translated clause by clause.

If a digest is present it is split at colons and unpacked into
`digest_kind, digest_value` (a `ValueError` if the split does not have exactly
two parts).  An unrecognized `digest_kind` is only *logged*
(`logging.error("Unsupported digest kind ...")`); control then falls to the
same existence-and-digest comparison used for `sha256` digests — the `else`
(size comparison) branch is *not* taken in that case.  With a digest present
and a local artifact on disk, `shasum` is computed (raising `NameError` for a
directory) and compared to `digest_value`: equal means `continue`, unequal
falls through to the download.  With a digest present and no local artifact,
control falls to the download.  With no digest, an existing artifact is
compared by `os.path.getsize` against `asset["size"]`, and an absent artifact
is downloaded. -/
def assetDecision (hash : List Nat → String) (asset : Asset)
    (localEntry : Option Entry) : Except PyErr AssetAction :=
  match asset.digest with
  | some d =>
    match splitColon d with
    | [_, digestValue] =>
      match localEntry with
      | some e =>
        match shasum hash e with
        | .error err => .error err
        | .ok sha256 =>
          if sha256 = digestValue then .ok .skip else .ok .fetch
      | none => .ok .fetch
    | _ => .error .valueErrorUnpack
  | none =>
    match localEntry with
    | some e => if entrySize e = asset.size then .ok .skip else .ok .fetch
    | none => .ok .fetch

/-- A concrete executable stand-in for the SHA-256 hex digest, used to
instantiate the hash parameter in closed witnesses and counterexamples (the
statements it witnesses hold for every hash function, so instantiating with
the real SHA-256 would only change the particular strings involved). -/
def hashModel (bs : List Nat) : String :=
  toString (bs.foldl (fun h b => (h * 31 + b) % 1000000007) 7)

/-- The outcome of one HTTP attempt as observed by `perform_with_backoff`:
either a response with a status code, or the low-level
`http.client.RemoteDisconnected` transport fault that the `except` clause
catches. -/
inductive Outcome where
  | status (code : Nat)
  | remoteDisconnected
  deriving DecidableEq

/-- The status codes of the `if not response.status_code in [403, 429, 502, 504]`
test in `perform_with_backoff`. -/
def retryableCodes : List Nat := [403, 429, 502, 504]

/-- An attempt outcome that sends `perform_with_backoff` to the sleep-and-retry
path: a status in `retryableCodes`, or `RemoteDisconnected` (caught and
passed over, which also reaches the sleep). -/
def isRetryable : Outcome → Bool
  | .status code => code ∈ retryableCodes
  | .remoteDisconnected => true

/-- Model of `response.raise_for_status()`: raises `requests.HTTPError` exactly for
client-error (4xx) and server-error (5xx) status codes, and returns normally
otherwise. -/
def raiseForStatus (code : Nat) : Except PyErr Nat :=
  if 400 ≤ code ∧ code < 600 then .error (.httpError code) else .ok code

/-- The `while True` loop of `perform_with_backoff`, run against a script of
attempt outcomes (the `n`-th element is what the `n`-th call of `fn`
produces) and the current backoff `duration`.  Returns the list of durations
passed to `sleeper.sleep`, in order, together with the terminal status code
(`none` when the script runs out while the loop is still retrying — the real
loop has no attempt bound and would keep going).  On a retryable outcome the
loop sleeps for `duration` and continues with
`duration = min(duration * 2, 60)`; on any other status it breaks
immediately. -/
def runBackoffAux : List Outcome → Nat → List Nat × Option Nat
  | [], _ => ([], none)
  | .status code :: rest, duration =>
    if code ∈ retryableCodes then
      let s := runBackoffAux rest (min (duration * 2) 60)
      (duration :: s.1, s.2)
    else ([], some code)
  | .remoteDisconnected :: rest, duration =>
    let s := runBackoffAux rest (min (duration * 2) 60)
    (duration :: s.1, s.2)

/-- Model of `perform_with_backoff(fn, url, accept, ...)`: the loop is entered with
`duration = 8`; after it breaks, `response.raise_for_status()` runs on the
terminal response.  (Header wiring and the terminal spinner are cosmetic and
not modelled.)  Result: the sleep durations and, if a terminal outcome was
reached, either the raised `HTTPError` or the returned status. -/
def performWithBackoff (outcomes : List Outcome) :
    List Nat × Option (Except PyErr Nat) :=
  let s := runBackoffAux outcomes 8
  (s.1, s.2.map raiseForStatus)

/-- The backoff duration before the `n`-th retry (counting from 0), as
generated by the loop's update `duration = min(duration * 2, 60)` from the
seed `8`. -/
def backoffDur : Nat → Nat
  | 0 => 8
  | n + 1 => min (backoffDur n * 2) 60

/-- A page served by the remote list endpoint, as `get_paginated` sees it:
the items of `response.json()` and the optional `response.links["next"]`
URL. -/
structure Page (α : Type) where
  items : List α
  next : Option String

/-- Model of `get_paginated(url, ...)`: fetch the first page, then loop — yield every
item of the current page, stop if the response carries no `next` link, and
otherwise fetch the page the `next` link points at and continue.  The
argument is the script of pages the remote serves to the successive
requests. -/
def getPaginated {α : Type} : List (Page α) → List α
  | [] => []
  | p :: rest => p.items ++ (if p.next.isSome then getPaginated rest else [])

/-- The shape of a remote page script the Paginator claim quantifies over:
at least one page, every page except the last carries a `next` link, and the
last carries none. -/
def wellFormedPages {α : Type} : List (Page α) → Bool
  | [] => false
  | [p] => p.next.isNone
  | p :: rest => p.next.isSome && wellFormedPages rest

/-- One filesystem-visible step of `download_file` after the initiating
request succeeded: appending one (non-empty) chunk of
`response.iter_content(chunk_size=1024)` to the private temporary file, or
the final `shutil.move(temporary_path, path)` that publishes the temporary
file at the destination. -/
inductive FetchOp where
  | writeTmp (chunk : List Nat)
  | moveTmpToDest

/-- The filesystem-visible operations `download_file` performs for a given
chunk script, in order: one `writeTmp` per non-empty chunk (the loop skips
falsy chunks via `if chunk:`), then the single `moveTmpToDest`.  The
temporary file lives in a fresh `tempfile.TemporaryDirectory`, which is
discarded — not promoted — when the scope is exited early. -/
def downloadOps (chunks : List (List Nat)) : List FetchOp :=
  ((chunks.filter (fun c => !c.isEmpty)).map FetchOp.writeTmp) ++ [FetchOp.moveTmpToDest]

/-- The state `download_file` acts on: the content of the private temporary
file and the content at the destination path (`none` when absent). -/
structure FetchState where
  tmp : List Nat
  dest : Option (List Nat)

/-- Effect of one `FetchOp` on the filesystem state. -/
def applyOp (s : FetchState) : FetchOp → FetchState
  | .writeTmp chunk => { s with tmp := s.tmp ++ chunk }
  | .moveTmpToDest => { s with dest := some s.tmp }

/-- Run a list of fetch operations from a given state. -/
def runOps (s : FetchState) (ops : List FetchOp) : FetchState :=
  ops.foldl applyOp s

/-- A filename is hidden when it starts with a dot (the convention behind the
spec's "visible (non-hidden) child"). -/
def isHiddenName (s : String) : Bool :=
  match s.data with
  | [] => false
  | c :: _ => c = '.'

/-- The bytes of `s.encode('utf-8')`.  The strings fed to it here are hex
digests, which are ASCII, so the code points are the bytes. -/
def strBytes (s : String) : List Nat :=
  s.data.map Char.toNat

/-- Lexicographic comparison of character lists by code point, the order
Python's `sorted` uses on strings.  (Defined here rather than through
`String`'s order instances so that it evaluates by kernel reduction.) -/
def charListLe : List Char → List Char → Bool
  | [], _ => true
  | _ :: _, [] => false
  | c :: cs, d :: ds =>
    if c.toNat < d.toNat then true
    else if d.toNat < c.toNat then false
    else charListLe cs ds

/-- Code-point lexicographic order on filenames, as `sorted` compares
them. -/
def strLe (s t : String) : Bool :=
  charListLe s.data t.data

mutual
/-- Modelled from the spec: the digest routine as the spec describes it.  The
source's `shasum` calls `listdir(path, include_hidden=False)` in its
directory branch, but `listdir` is defined nowhere in the program (see
`shasum` above); the spec's words — "recursively digest each visible
(non-hidden) child in lexicographic filename order, concatenate the
hex-encoded child digests, and digest the concatenation" — supply the missing
listing: the visible children, in lexicographic filename order.  Each child is
digested (`childDigests`, keeping its name), hidden names are dropped, the
pairs are sorted by name, and the digest concatenation is hashed; digesting
before sorting is equivalent to the source's digesting in sorted order, since
a child's digest does not depend on its position.  Note that, both in the
source (`sha256.update(shasum(...).encode('utf-8'))`) and in the spec's
words, only the child *digests* enter the hash, never the child names. -/
def shasumSpec (hash : List Nat → String) : Entry → String
  | .file content => hash content
  | .dir _ children =>
    hash (strBytes (String.join
      ((List.insertionSort (fun p q : String × String => strLe p.1 q.1 = true)
          ((childDigests hash children).filter (fun p => !(isHiddenName p.1)))).map
        Prod.snd)))

/-- The recursive digests of a directory's children, each paired with its
filename (see `shasumSpec`). -/
def childDigests (hash : List Nat → String) :
    List (String × Entry) → List (String × String)
  | [] => []
  | (n, e) :: rest => (n, shasumSpec hash e) :: childDigests hash rest
end

/-- A remote asset together with the byte stream its download locator
serves. -/
structure RAsset where
  asset : Asset
  content : List Nat

/-- A remote release record as `main` consumes it: `tag_name`, `name`,
`body`, the asset records, and — for the `--download-source` path — the
filename the tarball endpoint's `content-disposition` header provides and the
bytes the tarball locator serves. -/
structure RRelease where
  tag : String
  displayName : String
  body : String
  assets : List RAsset
  sourceFilename : String
  sourceContent : List Nat

/-- The release directory tree of one repository, as a map from
(release tag, filename) to the entry stored there. -/
def FS : Type := String × String → Option Entry

/-- Store an entry at a path (a write or an overwrite, as by `open(..., "w")`,
`shutil.move`, or a completed `download_file`). -/
def fsSet (fs : FS) (k : String × String) (e : Entry) : FS :=
  fun k' => if k' = k then some e else fs k'

/-- The `for asset in release["assets"]` loop of `main` over one release:
each asset is put to the Identity Comparator against the entry at its path;
`skip` leaves the filesystem alone, `fetch` is a `download_file` call, which
(per the Fetcher contract) leaves the complete served bytes at the path and
is counted.  A comparator error (e.g. `shasum`'s `NameError`) aborts the
run. -/
def runAssets (hash : List Nat → String) (tag : String) :
    List RAsset → FS → Nat → Except PyErr (FS × Nat)
  | [], fs, c => .ok (fs, c)
  | a :: rest, fs, c =>
    match assetDecision hash a.asset (fs (tag, a.asset.name)) with
    | .error e => .error e
    | .ok .skip => runAssets hash tag rest fs c
    | .ok .fetch =>
      runAssets hash tag rest (fsSet fs (tag, a.asset.name) (.file a.content)) (c + 1)

/-- Processing of one release by `main`: write `_release.json` and
`_description.md` (idempotent overwrites; their serialized contents are the
parameters `mJ` and `mD`, modelling `json.dump` and the markdown rendering);
when `--download-source` is set, download the source tarball only if nothing
exists at its path yet; then run the asset loop.  `c` threads the number of
`download_file` invocations. -/
def runRelease (hash : List Nat → String) (mJ mD : RRelease → List Nat)
    (ds : Bool) (r : RRelease) (fs : FS) (c : Nat) : Except PyErr (FS × Nat) :=
  let fs1 := fsSet fs (r.tag, "_release.json") (.file (mJ r))
  let fs2 := fsSet fs1 (r.tag, "_description.md") (.file (mD r))
  match ds with
  | false => runAssets hash r.tag r.assets fs2 c
  | true =>
    match fs2 (r.tag, r.sourceFilename) with
    | some _ => runAssets hash r.tag r.assets fs2 c
    | none =>
      runAssets hash r.tag r.assets
        (fsSet fs2 (r.tag, r.sourceFilename) (.file r.sourceContent)) (c + 1)

/-- One run of the Sync Driver over one repository: `main`'s
`for release in gh_releases(repository)` loop.  Returns the final filesystem
and the number of `download_file` (Fetcher) invocations of this run. -/
def runRepo (hash : List Nat → String) (mJ mD : RRelease → List Nat)
    (ds : Bool) : List RRelease → FS → Nat → Except PyErr (FS × Nat)
  | [], fs, c => .ok (fs, c)
  | r :: rest, fs, c =>
    match runRelease hash mJ mD ds r fs c with
    | .error e => .error e
    | .ok (fs', c') => runRepo hash mJ mD ds rest fs' c'

/-- Whether an `Except` value is a normal result. -/
def exceptIsOk {ε α : Type} : Except ε α → Bool
  | .ok _ => true
  | .error _ => false

/-- Two consecutive runs of the Sync Driver against the same (unchanged)
remote state, the second starting from the filesystem the first left behind.
Result: the Fetcher invocation counts of the two runs. -/
def runTwice (hash : List Nat → String) (mJ mD : RRelease → List Nat)
    (ds : Bool) (rels : List RRelease) (fs0 : FS) : Except PyErr (Nat × Nat) :=
  match runRepo hash mJ mD ds rels fs0 0 with
  | .error e => .error e
  | .ok (fs1, n1) =>
    match runRepo hash mJ mD ds rels fs1 0 with
    | .error e => .error e
    | .ok (_, n2) => .ok (n1, n2)

/-- A remote asset whose descriptor is truthful and verifiable: either it has
no digest and its advertised size is the length of the served bytes, or its
digest is a well-formed `sha256:` digest of the served bytes. -/
def assetGood (hash : List Nat → String) (a : RAsset) : Bool :=
  match a.asset.digest with
  | none => a.asset.size == a.content.length
  | some d => splitColon d == ["sha256", hash a.content]

/-- A release is settled on a filesystem when the Identity Comparator skips
every one of its assets and (when source downloading is on) something exists
at its source-archive path.  A run over a settled filesystem performs no
fetch. -/
def SettledRel (hash : List Nat → String) (ds : Bool) (fs : FS)
    (r : RRelease) : Prop :=
  (∀ a ∈ r.assets,
    assetDecision hash a.asset (fs (r.tag, a.asset.name)) = .ok .skip)
  ∧ (ds = true → (fs (r.tag, r.sourceFilename)).isSome = true)

/-! ## Theorems -/

/-- The backoff update `duration = min(duration * 2, 60)` maps the closed
form at step `j` to the closed form at step `j + 1`. -/
theorem minDoubleStep (j : Nat) :
    min (min (8 * 2 ^ j) 60 * 2) 60 = min (8 * 2 ^ (j + 1)) 60 := by
  have h2 : (2 : Nat) ^ (j + 1) = 2 ^ j * 2 := pow_succ 2 j
  rw [h2]
  omega

/-- Every sleep duration the retry loop performs is bounded by 60, provided
the current duration is. -/
theorem backoff_sleeps_le (outs : List Outcome) (d : Nat) (hd : d ≤ 60) :
    ∀ x ∈ (runBackoffAux outs d).1, x ≤ 60 := by
  induction outs generalizing d with
  | nil => simp [runBackoffAux]
  | cons o rest ih =>
    cases o with
    | status code =>
      by_cases hc : code ∈ retryableCodes
      · simp only [runBackoffAux, if_pos hc, List.mem_cons]
        rintro x (rfl | hx)
        · exact hd
        · exact ih (min (d * 2) 60) (by omega) x hx
      · simp [runBackoffAux, hc]
    | remoteDisconnected =>
      simp only [runBackoffAux, List.mem_cons]
      rintro x (rfl | hx)
      · exact hd
      · exact ih (min (d * 2) 60) (by omega) x hx

/-- While the first `k` scripted outcomes are retryable, the sleep durations
follow the closed form `min (8 * 2 ^ (j + n)) 60` from a current duration of
`min (8 * 2 ^ j) 60`. -/
theorem backoff_sleeps_take (outs : List Outcome) (k j : Nat)
    (hk : k ≤ outs.length)
    (hr : ∀ o ∈ outs.take k, isRetryable o = true) :
    (runBackoffAux outs (min (8 * 2 ^ j) 60)).1.take k
      = (List.range k).map (fun n => min (8 * 2 ^ (j + n)) 60) := by
  induction outs generalizing k j with
  | nil =>
    have hk0 : k = 0 := by simpa using hk
    subst hk0
    simp
  | cons o rest ih =>
    cases k with
    | zero => simp
    | succ k' =>
      have ho : isRetryable o = true := hr o (by simp)
      have hrest : ∀ o' ∈ rest.take k', isRetryable o' = true := by
        intro o' h'
        exact hr o' (by simp [h'])
      have hk' : k' ≤ rest.length := by simpa using hk
      have hstep :
          (runBackoffAux rest (min (min (8 * 2 ^ j) 60 * 2) 60)).1.take k'
            = (List.range k').map (fun n => min (8 * 2 ^ (j + 1 + n)) 60) := by
        rw [minDoubleStep j]
        exact ih k' (j + 1) hk' hrest
      have hfun :
          (fun n => min (8 * 2 ^ (j + n)) 60) ∘ Nat.succ
            = (fun n => min (8 * 2 ^ (j + 1 + n)) 60) := by
        funext n
        simp only [Function.comp_apply]
        have h5 : j + Nat.succ n = j + 1 + n := by omega
        rw [h5]
      have hrhs :
          (List.range (k' + 1)).map (fun n => min (8 * 2 ^ (j + n)) 60)
            = min (8 * 2 ^ j) 60
              :: (List.range k').map (fun n => min (8 * 2 ^ (j + 1 + n)) 60) := by
        rw [List.range_succ_eq_map, List.map_cons, List.map_map, hfun]
        congr 1
      cases o with
      | status code =>
        have hc : code ∈ retryableCodes := by simpa [isRetryable] using ho
        have hunfold :
            runBackoffAux (Outcome.status code :: rest) (min (8 * 2 ^ j) 60)
              = (min (8 * 2 ^ j) 60
                  :: (runBackoffAux rest (min (min (8 * 2 ^ j) 60 * 2) 60)).1,
                 (runBackoffAux rest (min (min (8 * 2 ^ j) 60 * 2) 60)).2) := by
          simp [runBackoffAux, hc]
        rw [hunfold, List.take_succ_cons, hstep, hrhs]
      | remoteDisconnected =>
        have hunfold :
            runBackoffAux (Outcome.remoteDisconnected :: rest) (min (8 * 2 ^ j) 60)
              = (min (8 * 2 ^ j) 60
                  :: (runBackoffAux rest (min (min (8 * 2 ^ j) 60 * 2) 60)).1,
                 (runBackoffAux rest (min (min (8 * 2 ^ j) 60 * 2) 60)).2) := by
          simp [runBackoffAux]
        rw [hunfold, List.take_succ_cons, hstep, hrhs]

/-- C3. For every run of the Backoff Retrier in which the first `k` outcomes
are retryable, the sleep durations before attempts `2 .. k+1` are exactly
`8, 16, 32, 60, 60, …` — the `n`-th (1-based) duration is
`min (8 * 2 ^ (n - 1)) 60` — and no sleep duration of the whole run ever
exceeds 60 time-units. -/
theorem claim3_backoff_durations (outcomes : List Outcome) (k : Nat)
    (hk : k ≤ outcomes.length)
    (hr : ∀ o ∈ outcomes.take k, isRetryable o = true) :
    (performWithBackoff outcomes).1.take k
        = (List.range k).map (fun n => min (8 * 2 ^ n) 60)
    ∧ ∀ d ∈ (performWithBackoff outcomes).1, d ≤ 60 := by
  constructor
  · have h := backoff_sleeps_take outcomes k 0 hk hr
    have h8 : min (8 * 2 ^ (0 : Nat)) 60 = 8 := by norm_num
    rw [h8] at h
    simpa [performWithBackoff] using h
  · have h := backoff_sleeps_le outcomes 8 (by omega)
    simpa [performWithBackoff] using h

/-- Witness for C3: five consecutive retryable outcomes (mixing rate-limit
statuses and a dropped connection) produce exactly the sleeps
`8, 16, 32, 60, 60`, all bounded by 60. -/
theorem claim3_witness :
    (performWithBackoff
        [.status 429, .remoteDisconnected, .status 502, .status 504,
          .status 403, .status 200]).1.take 5 = [8, 16, 32, 60, 60]
    ∧ ∀ d ∈ (performWithBackoff
        [.status 429, .remoteDisconnected, .status 502, .status 504,
          .status 403, .status 200]).1, d ≤ 60 := by
  have h := claim3_backoff_durations
    [.status 429, .remoteDisconnected, .status 502, .status 504,
      .status 403, .status 200] 5 (by decide) (by decide)
  exact ⟨h.1.trans (by decide), h.2⟩

/-- C4. Outcome classification of the Backoff Retrier: an attempt outcome is
retryable exactly when it is an HTTP status in {403, 429, 502, 504} or a
peer-closed-connection fault; a retryable outcome makes the loop sleep for
the current duration and continue, any other outcome stops the loop at once;
and the terminal `raise_for_status` raises exactly for non-success (4xx/5xx)
statuses, returning the response otherwise. -/
theorem claim4_retry_classification (o : Outcome) (rest : List Outcome)
    (d : Nat) (c : Nat) :
    (isRetryable o = true ↔
        (∃ code ∈ retryableCodes, o = .status code) ∨ o = .remoteDisconnected)
    ∧ (isRetryable o = true →
        runBackoffAux (o :: rest) d
          = (d :: (runBackoffAux rest (min (d * 2) 60)).1,
              (runBackoffAux rest (min (d * 2) 60)).2))
    ∧ (isRetryable o = false →
        ∃ code, o = .status code ∧ runBackoffAux (o :: rest) d = ([], some code))
    ∧ (raiseForStatus c = .error (.httpError c) ↔ 400 ≤ c ∧ c < 600)
    ∧ (¬ (400 ≤ c ∧ c < 600) → raiseForStatus c = .ok c) := by
  refine ⟨?_, ?_, ?_, ?_, ?_⟩
  · cases o with
    | status code => simp [isRetryable]
    | remoteDisconnected => simp [isRetryable]
  · intro h
    cases o with
    | status code =>
      have hc : code ∈ retryableCodes := by simpa [isRetryable] using h
      simp [runBackoffAux, hc]
    | remoteDisconnected => simp [runBackoffAux]
  · intro h
    cases o with
    | status code =>
      have hc : code ∉ retryableCodes := by simpa [isRetryable] using h
      exact ⟨code, rfl, by simp [runBackoffAux, hc]⟩
    | remoteDisconnected => simp [isRetryable] at h
  · unfold raiseForStatus
    split <;> simp_all
  · intro h
    simp [raiseForStatus, h]

/-- Witness for C4: a terminal 500 stops the loop with no sleep and raises;
a 200 does not raise; a retryable 429 sleeps once and keeps looping. -/
theorem claim4_witness :
    runBackoffAux [Outcome.status 500] 8 = ([], some 500)
    ∧ raiseForStatus 500 = .error (.httpError 500)
    ∧ raiseForStatus 200 = .ok 200
    ∧ runBackoffAux [Outcome.status 429] 8 = ([8], none) := by
  have h1 := (claim4_retry_classification (.status 500) [] 8 500).2.2.1
    (by decide)
  have h2 := ((claim4_retry_classification (.status 500) [] 8 500).2.2.2.1).mpr
    (by omega)
  have h3 := (claim4_retry_classification (.status 429) [] 8 200).2.2.2.2
    (by omega)
  have h4 := (claim4_retry_classification (.status 429) [] 8 200).2.1
    (by decide)
  obtain ⟨code, hc, hrun⟩ := h1
  injection hc with hcode
  subst hcode
  refine ⟨hrun, h2, h3, ?_⟩
  simpa [runBackoffAux] using h4

/-- Unfolding step of `get_paginated` when the current page carries a `next`
link: its items, then the continuation on the following pages. -/
theorem getPaginated_cons_some {α : Type} (p : Page α) (rest : List (Page α))
    (h : p.next.isSome = true) :
    getPaginated (p :: rest) = p.items ++ getPaginated rest := by
  simp [getPaginated, h]

/-- Unfolding step of `get_paginated` when the current page carries no `next`
link: its items only, whatever would lie beyond. -/
theorem getPaginated_cons_none {α : Type} (p : Page α) (rest : List (Page α))
    (h : p.next.isSome = false) :
    getPaginated (p :: rest) = p.items := by
  simp [getPaginated, h]

/-- Helper for C8: the flatten form of `getPaginated` on a well-formed page
script, together with insensitivity to pages lying beyond the last one. -/
theorem getPaginated_flatten {α : Type} (pages : List (Page α))
    (h : wellFormedPages pages = true) :
    getPaginated pages = (pages.map Page.items).flatten
    ∧ ∀ extra : List (Page α),
        getPaginated (pages ++ extra) = getPaginated pages := by
  induction pages with
  | nil => simp [wellFormedPages] at h
  | cons p rest ih =>
    cases rest with
    | nil =>
      have hnone : p.next.isNone = true := by simpa [wellFormedPages] using h
      have hnotsome : p.next.isSome = false := by
        cases hv : p.next with
        | none => rfl
        | some v => rw [hv] at hnone; simp at hnone
      refine ⟨by simp [getPaginated_cons_none p [] hnotsome], ?_⟩
      intro extra
      rw [List.cons_append, getPaginated_cons_none p ([] ++ extra) hnotsome,
        getPaginated_cons_none p [] hnotsome]
    | cons q rest' =>
      have h' : p.next.isSome = true ∧ wellFormedPages (q :: rest') = true := by
        simpa [wellFormedPages] using h
      obtain ⟨hsome, hwf⟩ := h'
      obtain ⟨ih1, ih2⟩ := ih hwf
      refine ⟨?_, ?_⟩
      · rw [getPaginated_cons_some p (q :: rest') hsome, ih1]
        simp
      · intro extra
        rw [List.cons_append, getPaginated_cons_some p ((q :: rest') ++ extra) hsome,
          getPaginated_cons_some p (q :: rest') hsome, ih2 extra]

/-- C8. For every remote collection of `N` pages where pages `1 .. N-1` each
carry a `next` cursor and page `N` carries none, the Paginator produces
exactly the concatenation of the pages' item lists in page order (preserving
in-page order), its length is the sum of the per-page item counts, and the
sequence terminates after page `N`: pages served beyond the last one are
never consumed. -/
theorem claim8_pagination {α : Type} (pages : List (Page α))
    (h : wellFormedPages pages = true) :
    getPaginated pages = (pages.map Page.items).flatten
    ∧ (getPaginated pages).length
        = (pages.map (fun p => p.items.length)).sum
    ∧ ∀ extra : List (Page α),
        getPaginated (pages ++ extra) = getPaginated pages := by
  obtain ⟨h1, h2⟩ := getPaginated_flatten pages h
  refine ⟨h1, ?_, h2⟩
  rw [h1, List.length_flatten, List.map_map]
  rfl

/-- Witness for C8: three pages of sizes 2, 1 and 2 produce the five items
in page order, and a page served beyond the cursor-less last page is not
consumed. -/
theorem claim8_witness :
    getPaginated
        [Page.mk [10, 11] (some "p2"), Page.mk [12] (some "p3"),
          Page.mk [13, 14] none]
      = [10, 11, 12, 13, 14]
    ∧ getPaginated
        ([Page.mk [10, 11] (some "p2"), Page.mk [12] (some "p3"),
            Page.mk [13, 14] none] ++ [Page.mk [99] none])
      = getPaginated
        [Page.mk [10, 11] (some "p2"), Page.mk [12] (some "p3"),
          Page.mk [13, 14] none] := by
  have h := claim8_pagination
    [Page.mk [10, 11] (some "p2"), Page.mk [12] (some "p3"),
      Page.mk [13, 14] none] (by decide)
  exact ⟨h.1.trans (by decide), h.2.2 [Page.mk [99] none]⟩

/-- Helper for C9: a run of pure `writeTmp` operations appends the chunks to
the temporary file and leaves the destination untouched. -/
theorem runOps_writes (cs : List (List Nat)) (s : FetchState) :
    runOps s (cs.map FetchOp.writeTmp) = ⟨s.tmp ++ cs.flatten, s.dest⟩ := by
  induction cs generalizing s with
  | nil => simp [runOps]
  | cons c rest ih =>
    simp only [List.map_cons, runOps, List.foldl_cons, applyOp]
    have := ih ⟨s.tmp ++ c, s.dest⟩
    simp only [runOps] at this
    rw [this]
    simp

/-- Helper for C9: dropping empty chunks does not change the concatenated
byte stream (`download_file` skips falsy chunks via `if chunk:`). -/
theorem flatten_filter_ne_nil (chunks : List (List Nat)) :
    (chunks.filter (fun c => !c.isEmpty)).flatten = chunks.flatten := by
  induction chunks with
  | nil => rfl
  | cons c rest ih =>
    by_cases hc : c = []
    · subst hc
      simp [ih]
    · simp [List.filter_cons, hc, ih]

/-- C9. For every invocation of the Fetcher and every interruption point
`k`, the destination either retains its prior content (or prior absence) or
holds the complete downloaded byte stream — never a partial prefix: bytes are
written only to the private temporary file, which is promoted by the single
final move; and a run that completes leaves exactly the full stream at the
destination. -/
theorem claim9_fetch_atomicity (chunks : List (List Nat))
    (d0 : Option (List Nat)) (k : Nat) :
    ((runOps ⟨[], d0⟩ ((downloadOps chunks).take k)).dest = d0
      ∨ (runOps ⟨[], d0⟩ ((downloadOps chunks).take k)).dest
          = some chunks.flatten)
    ∧ (runOps ⟨[], d0⟩ (downloadOps chunks)).dest = some chunks.flatten := by
  have hfull : (runOps ⟨[], d0⟩ (downloadOps chunks)).dest
      = some chunks.flatten := by
    unfold downloadOps
    rw [show runOps ⟨[], d0⟩
        (((chunks.filter (fun c => !c.isEmpty)).map FetchOp.writeTmp)
          ++ [FetchOp.moveTmpToDest])
        = (runOps (runOps ⟨[], d0⟩
            ((chunks.filter (fun c => !c.isEmpty)).map FetchOp.writeTmp))
            [FetchOp.moveTmpToDest]) from by
      simp [runOps, List.foldl_append]]
    rw [runOps_writes]
    simp [runOps, applyOp, flatten_filter_ne_nil]
  refine ⟨?_, hfull⟩
  by_cases hk :
      k ≤ ((chunks.filter (fun c => !c.isEmpty)).map FetchOp.writeTmp).length
  · left
    have htake : (downloadOps chunks).take k
        = (((chunks.filter (fun c => !c.isEmpty)).take k).map FetchOp.writeTmp) := by
      unfold downloadOps
      rw [List.take_append_eq_append_take]
      have : k - ((chunks.filter (fun c => !c.isEmpty)).map FetchOp.writeTmp).length
          = 0 := by omega
      rw [this]
      simp [List.map_take]
    rw [htake, runOps_writes]
  · have htake : (downloadOps chunks).take k = downloadOps chunks := by
      apply List.take_of_length_le
      unfold downloadOps
      simp only [List.length_append, List.length_map, List.length_cons,
        List.length_nil]
      simp only [List.length_map] at hk
      omega
    right
    rw [htake]
    exact hfull

/-- C10. For every local artifact path that is a directory, `shasum` raises
the unbound-name error (its recursive branch calls `listdir`, defined nowhere
in the program) instead of returning a digest; consequently, for any asset
that carries a digest, the comparison against a directory-valued local
artifact never completes normally — the per-asset processing aborts with the
error instead of reaching a skip-or-fetch decision. -/
theorem claim10_shasum_dir_nameerror (hash : List Nat → String)
    (stSize : Nat) (children : List (String × Entry)) (a : Asset)
    (d k v : String) (hd : a.digest = some d) (hs : splitColon d = [k, v]) :
    shasum hash (Entry.dir stSize children) = .error .nameErrorListdir
    ∧ assetDecision hash a (some (Entry.dir stSize children))
        = .error .nameErrorListdir := by
  refine ⟨rfl, ?_⟩
  simp only [assetDecision, hd, hs, shasum]

/-- Witness for C10 at a concrete directory artifact and a concrete
`sha256:`-tagged asset. -/
theorem claim10_witness :
    shasum hashModel (Entry.dir 4096 [("x", Entry.file [1])])
        = .error .nameErrorListdir
    ∧ assetDecision hashModel (Asset.mk "a.bin" 3 "u" (some "sha256:aa"))
        (some (Entry.dir 4096 [("x", Entry.file [1])]))
        = .error .nameErrorListdir :=
  claim10_shasum_dir_nameerror hashModel 4096 [("x", Entry.file [1])]
    (Asset.mk "a.bin" 3 "u" (some "sha256:aa")) "sha256:aa" "sha256" "aa"
    rfl (by decide)

/-- C7. For every asset whose descriptor carries no digest: a local artifact
of equal byte size means the fetch is skipped, a local artifact of different
byte size means the Fetcher is invoked, and an absent local artifact means
the Fetcher is invoked. -/
theorem claim7_no_digest_policy (hash : List Nat → String) (a : Asset)
    (hd : a.digest = none) :
    (∀ e : Entry, assetDecision hash a (some e)
        = .ok (if entrySize e = a.size then .skip else .fetch))
    ∧ assetDecision hash a none = .ok .fetch := by
  constructor
  · intro e
    simp only [assetDecision, hd]
    by_cases hc : entrySize e = a.size
    · simp [hc]
    · simp [hc]
  · simp only [assetDecision, hd]

/-- Witness for C7: a digest-less asset of advertised size 2 against a
2-byte local file (skip), a 1-byte local file (fetch), and no local file
(fetch). -/
theorem claim7_witness :
    assetDecision hashModel (Asset.mk "w.bin" 2 "u" none)
        (some (Entry.file [7, 8])) = .ok .skip
    ∧ assetDecision hashModel (Asset.mk "w.bin" 2 "u" none)
        (some (Entry.file [7])) = .ok .fetch
    ∧ assetDecision hashModel (Asset.mk "w.bin" 2 "u" none) none
        = .ok .fetch := by
  have h := claim7_no_digest_policy hashModel (Asset.mk "w.bin" 2 "u" none) rfl
  exact ⟨(h.1 (Entry.file [7, 8])).trans (by rfl),
    (h.1 (Entry.file [7])).trans (by rfl), h.2⟩

/-- C5. For every asset carrying a recognized `sha256` digest: with a local
file present the fetch is skipped exactly when the locally computed digest
equals the descriptor's digest value — the local content (hence its byte
size) is otherwise unconstrained — and with no local artifact the Fetcher is
invoked. -/
theorem claim5_sha256_comparison (hash : List Nat → String) (a : Asset)
    (d v : String) (c : List Nat)
    (hd : a.digest = some d) (hs : splitColon d = ["sha256", v]) :
    (assetDecision hash a (some (Entry.file c)) = .ok .skip ↔ hash c = v)
    ∧ (hash c ≠ v →
        assetDecision hash a (some (Entry.file c)) = .ok .fetch)
    ∧ assetDecision hash a none = .ok .fetch := by
  simp only [assetDecision, hd, hs, shasum]
  refine ⟨?_, ?_, trivial⟩
  · by_cases hc : hash c = v
    · simp [hc]
    · simp [hc]
  · intro hc
    simp [hc]

/-- Witness for C5: an asset whose advertised size (5) differs from the
local file's size (1) is still skipped because the digests agree, and the
same asset with no local artifact is fetched. -/
theorem claim5_witness :
    assetDecision hashModel (Asset.mk "w.bin" 5 "u" (some "sha256:218"))
        (some (Entry.file [1])) = .ok .skip
    ∧ assetDecision hashModel (Asset.mk "w.bin" 5 "u" (some "sha256:218"))
        none = .ok .fetch := by
  have h := claim5_sha256_comparison hashModel
    (Asset.mk "w.bin" 5 "u" (some "sha256:218")) "sha256:218" "218" [1]
    rfl (by decide)
  exact ⟨h.1.mpr (by decide), h.2.2⟩

/-- Counterexample to C1.  The claim says that for an asset carrying a
digest with an unrecognized algorithm tag and an existing local artifact,
the comparator falls through to the no-digest byte-size policy, under which
equal sizes skip the fetch.  Here the digest tag is `md5` (not `sha256`),
the local file's byte size (3) equals the descriptor's size (3), and yet the
code re-fetches: after logging the unsupported kind it still compares the
locally computed SHA-256 digest against the `md5` digest value, which do not
match. -/
theorem claim1_counterexample :
    splitColon "md5:0badc0de" = ["md5", "0badc0de"]
    ∧ ("md5" : String) ≠ "sha256"
    ∧ entrySize (Entry.file [1, 2, 3])
        = (Asset.mk "tool.bin" 3 "u" (some "md5:0badc0de")).size
    ∧ assetDecision hashModel (Asset.mk "tool.bin" 3 "u" (some "md5:0badc0de"))
        (some (Entry.file [1, 2, 3])) = .ok .fetch :=
  ⟨by decide, by decide, rfl, rfl⟩

/-- C1 as amended.  For every asset whose descriptor carries a digest with an
algorithm tag other than `sha256` and for which a local artifact (a file)
exists, the comparator reports the condition non-fatally and then applies the
*digest* policy — comparing the locally computed SHA-256 hex digest against
the foreign digest value: equal skips the fetch, unequal re-fetches — and
never the byte-size policy; an asset with no local artifact is fetched. -/
theorem claim1_amended (hash : List Nat → String) (a : Asset)
    (d k v : String) (c : List Nat)
    (hd : a.digest = some d) (hs : splitColon d = [k, v])
    (_hk : k ≠ "sha256") :
    (assetDecision hash a (some (Entry.file c)) = .ok .skip ↔ hash c = v)
    ∧ (hash c ≠ v →
        assetDecision hash a (some (Entry.file c)) = .ok .fetch)
    ∧ assetDecision hash a none = .ok .fetch := by
  simp only [assetDecision, hd, hs, shasum]
  refine ⟨?_, ?_, trivial⟩
  · by_cases hc : hash c = v
    · simp [hc]
    · simp [hc]
  · intro hc
    simp [hc]

/-- Witness for the amended C1: the `md5`-tagged asset of the counterexample
is re-fetched although the sizes match (the digest values differ), and the
same asset with no local artifact is fetched. -/
theorem claim1_amended_witness :
    assetDecision hashModel (Asset.mk "tool.bin" 3 "u" (some "md5:0badc0de"))
        (some (Entry.file [1, 2, 3])) = .ok .fetch
    ∧ assetDecision hashModel (Asset.mk "tool.bin" 3 "u" (some "md5:0badc0de"))
        none = .ok .fetch := by
  have h := claim1_amended hashModel
    (Asset.mk "tool.bin" 3 "u" (some "md5:0badc0de")) "md5:0badc0de"
    "md5" "0badc0de" [1, 2, 3] rfl (by decide) (by decide)
  exact ⟨h.2.1 (by decide), h.2.2⟩

/-- Totality of `charListLe`. -/
theorem charListLe_total : ∀ a b : List Char,
    charListLe a b = true ∨ charListLe b a = true := by
  intro a
  induction a with
  | nil => intro b; left; rfl
  | cons x xs ih =>
    intro b
    cases b with
    | nil => right; rfl
    | cons y ys =>
      simp only [charListLe]
      rcases Nat.lt_trichotomy x.toNat y.toNat with h1 | h1 | h1
      · left; rw [if_pos h1]
      · rcases ih ys with h | h
        · left; rw [if_neg (by omega), if_neg (by omega)]; exact h
        · right; rw [if_neg (by omega), if_neg (by omega)]; exact h
      · right; rw [if_pos h1]

/-- Transitivity of `charListLe`. -/
theorem charListLe_trans : ∀ a b c : List Char,
    charListLe a b = true → charListLe b c = true → charListLe a c = true := by
  intro a
  induction a with
  | nil => intro b c _ _; rfl
  | cons x xs ih =>
    intro b c hab hbc
    cases b with
    | nil => simp [charListLe] at hab
    | cons y ys =>
      cases c with
      | nil => simp [charListLe] at hbc
      | cons z zs =>
        simp only [charListLe] at hab hbc ⊢
        rcases Nat.lt_trichotomy x.toNat y.toNat with h1 | h1 | h1 <;>
          rcases Nat.lt_trichotomy y.toNat z.toNat with h2 | h2 | h2
        all_goals try (rw [if_pos (by omega : x.toNat < z.toNat)])
        all_goals try (rw [if_neg (by omega : ¬ y.toNat < z.toNat),
          if_pos (by omega : z.toNat < y.toNat)] at hbc
                       exact absurd hbc (by decide))
        all_goals try (rw [if_neg (by omega : ¬ x.toNat < y.toNat),
          if_pos (by omega : y.toNat < x.toNat)] at hab
                       exact absurd hab (by decide))
        rw [if_neg (by omega : ¬ x.toNat < z.toNat),
          if_neg (by omega : ¬ z.toNat < x.toNat)]
        rw [if_neg (by omega : ¬ x.toNat < y.toNat),
          if_neg (by omega : ¬ y.toNat < x.toNat)] at hab
        rw [if_neg (by omega : ¬ y.toNat < z.toNat),
          if_neg (by omega : ¬ z.toNat < y.toNat)] at hbc
        exact ih ys zs hab hbc

/-- Antisymmetry of `charListLe`. -/
theorem charListLe_antisymm : ∀ a b : List Char,
    charListLe a b = true → charListLe b a = true → a = b := by
  intro a
  induction a with
  | nil =>
    intro b hab hba
    cases b with
    | nil => rfl
    | cons y ys => simp [charListLe] at hba
  | cons x xs ih =>
    intro b hab hba
    cases b with
    | nil => simp [charListLe] at hab
    | cons y ys =>
      simp only [charListLe] at hab hba
      rcases Nat.lt_trichotomy x.toNat y.toNat with h1 | h1 | h1
      · rw [if_neg (by omega), if_pos h1] at hba
        exact absurd hba (by decide)
      · have hx : x = y := by
          apply Char.ext
          apply UInt32.ext
          exact h1
        subst hx
        rw [if_neg (by omega), if_neg (by omega)] at hab
        rw [if_neg (by omega), if_neg (by omega)] at hba
        rw [ih ys hab hba]
      · rw [if_neg (by omega), if_pos h1] at hab
        exact absurd hab (by decide)

/-- Antisymmetry of `strLe`. -/
theorem strLe_antisymm (s t : String) (h1 : strLe s t = true)
    (h2 : strLe t s = true) : s = t := by
  cases s with
  | mk ds =>
    cases t with
    | mk dt =>
      have h := charListLe_antisymm ds dt h1 h2
      rw [h]

/-- Sorting by filename is canonical: two permuted pair lists with no
duplicate names have the same insertion sort. -/
theorem insertionSort_key_eq (l₁ l₂ : List (String × String))
    (hp : l₁.Perm l₂) (hnd : (l₁.map Prod.fst).Nodup) :
    List.insertionSort (fun p q : String × String => strLe p.1 q.1 = true) l₁
      = List.insertionSort
          (fun p q : String × String => strLe p.1 q.1 = true) l₂ := by
  have hperm : (List.insertionSort
        (fun p q : String × String => strLe p.1 q.1 = true) l₁).Perm
      (List.insertionSort
        (fun p q : String × String => strLe p.1 q.1 = true) l₂) :=
    (List.perm_insertionSort _ l₁).trans
      (hp.trans (List.perm_insertionSort _ l₂).symm)
  haveI : IsTotal (String × String)
      (fun p q : String × String => strLe p.1 q.1 = true) :=
    ⟨fun p q => charListLe_total p.1.data q.1.data⟩
  haveI : IsTrans (String × String)
      (fun p q : String × String => strLe p.1 q.1 = true) :=
    ⟨fun p q u hpq hqu => charListLe_trans _ _ _ hpq hqu⟩
  have hs₁ := List.sorted_insertionSort
    (fun p q : String × String => strLe p.1 q.1 = true) l₁
  have hs₂ := List.sorted_insertionSort
    (fun p q : String × String => strLe p.1 q.1 = true) l₂
  have hnd₁ : ((List.insertionSort
      (fun p q : String × String => strLe p.1 q.1 = true) l₁).map
        Prod.fst).Nodup :=
    ((List.perm_insertionSort _ l₁).map Prod.fst).nodup_iff.mpr hnd
  have hnd₂ : ((List.insertionSort
      (fun p q : String × String => strLe p.1 q.1 = true) l₂).map
        Prod.fst).Nodup := by
    have hnd' : (l₂.map Prod.fst).Nodup := ((hp.map Prod.fst).nodup_iff).mp hnd
    exact ((List.perm_insertionSort _ l₂).map Prod.fst).nodup_iff.mpr hnd'
  haveI : IsAntisymm (String × String)
      (fun p q : String × String => strLe p.1 q.1 = true ∧ p.1 ≠ q.1) :=
    ⟨fun p q hpq hqp => absurd (strLe_antisymm _ _ hpq.1 hqp.1) hpq.2⟩
  have hs₁' : List.Sorted
      (fun p q : String × String => strLe p.1 q.1 = true ∧ p.1 ≠ q.1)
      (List.insertionSort
        (fun p q : String × String => strLe p.1 q.1 = true) l₁) :=
    hs₁.and ((List.pairwise_map).mp hnd₁)
  have hs₂' : List.Sorted
      (fun p q : String × String => strLe p.1 q.1 = true ∧ p.1 ≠ q.1)
      (List.insertionSort
        (fun p q : String × String => strLe p.1 q.1 = true) l₂) :=
    hs₂.and ((List.pairwise_map).mp hnd₂)
  exact List.eq_of_perm_of_sorted hperm hs₁' hs₂'

/-- Unfolding of `childDigests`: it is the name-preserving map of `shasumSpec` over the
children. -/
theorem childDigests_eq_map (hash : List Nat → String)
    (l : List (String × Entry)) :
    childDigests hash l = l.map (fun p => (p.1, shasumSpec hash p.2)) := by
  induction l with
  | nil => rfl
  | cons p rest ih =>
    cases p with
    | mk n e => simp [childDigests, ih]

/-- Counterexample to C6.  The claim says that renaming any child (content
unchanged) yields a different directory digest.  But the digest computation
hashes only the concatenated child digests — filenames affect ordering and
visibility, never the hashed bytes — so renaming the sole child of a
directory from `a` to `b` leaves the digest unchanged. -/
theorem claim6_counterexample :
    ("a" : String) ≠ "b"
    ∧ shasumSpec hashModel (Entry.dir 0 [("a", Entry.file [1, 2])])
        = shasumSpec hashModel (Entry.dir 0 [("b", Entry.file [1, 2])]) :=
  ⟨by decide, rfl⟩

/-- C6 as amended.  The digest of a directory artifact is determined solely
by the sequence of its visible children's recursive digests taken in
lexicographic filename order (the directory's own inode size plays no role):
permuting the filesystem traversal order of children with distinct names
yields the same digest; filenames, however, influence only ordering and
visibility and are not hashed, so a rename yields a different digest only
when it changes the sorted digest sequence — in particular, renaming the
sole (visible) child of a directory never changes the digest. -/
theorem claim6_amended (hash : List Nat → String) (s₁ s₂ : Nat)
    (l₁ l₂ : List (String × Entry)) (hp : l₁.Perm l₂)
    (hnd : (l₁.map Prod.fst).Nodup)
    (s : Nat) (n n' : String) (e : Entry)
    (hn : isHiddenName n = false) (hn' : isHiddenName n' = false) :
    shasumSpec hash (Entry.dir s₁ l₁) = shasumSpec hash (Entry.dir s₂ l₂)
    ∧ shasumSpec hash (Entry.dir s [(n, e)])
        = shasumSpec hash (Entry.dir s [(n', e)]) := by
  constructor
  · simp only [shasumSpec]
    congr 2
    have hdp : (childDigests hash l₁).Perm (childDigests hash l₂) := by
      rw [childDigests_eq_map, childDigests_eq_map]
      exact hp.map _
    have hfp := hdp.filter (fun p => !(isHiddenName p.1))
    have hnames : (childDigests hash l₁).map Prod.fst = l₁.map Prod.fst := by
      rw [childDigests_eq_map, List.map_map]
      rfl
    have hndc : ((childDigests hash l₁).map Prod.fst).Nodup := by
      rw [hnames]
      exact hnd
    have hndf : (((childDigests hash l₁).filter
        (fun p => !(isHiddenName p.1))).map Prod.fst).Nodup :=
      List.Nodup.sublist ((List.filter_sublist _).map Prod.fst) hndc
    rw [insertionSort_key_eq _ _ hfp hndf]
  · simp only [shasumSpec, childDigests]
    rw [show (List.filter (fun p => !(isHiddenName p.1))
        [(n, shasumSpec hash e)]) = [(n, shasumSpec hash e)] from by
      simp [List.filter_cons, hn]]
    rw [show (List.filter (fun p => !(isHiddenName p.1))
        [(n', shasumSpec hash e)]) = [(n', shasumSpec hash e)] from by
      simp [List.filter_cons, hn']]
    simp [List.insertionSort]

/-- Witness for the amended C6: swapping the on-disk order of two distinct
children (and changing the directory inode size) preserves the digest, and
renaming the sole child from `a` to `z` preserves it too. -/
theorem claim6_amended_witness :
    shasumSpec hashModel
        (Entry.dir 0 [("b", Entry.file [3]), ("a", Entry.file [1, 2])])
      = shasumSpec hashModel
        (Entry.dir 7 [("a", Entry.file [1, 2]), ("b", Entry.file [3])])
    ∧ shasumSpec hashModel (Entry.dir 0 [("a", Entry.file [9])])
        = shasumSpec hashModel (Entry.dir 0 [("z", Entry.file [9])]) := by
  have h := claim6_amended hashModel 0 7
    [("b", Entry.file [3]), ("a", Entry.file [1, 2])]
    [("a", Entry.file [1, 2]), ("b", Entry.file [3])]
    (List.Perm.swap ("a", Entry.file [1, 2]) ("b", Entry.file [3]) [])
    (by decide) 0 "a" "z" (Entry.file [9]) (by decide) (by decide)
  exact h

/-- Writing a path makes it hold exactly the written entry. -/
theorem fsSet_same (fs : FS) (k : String × String) (e : Entry) :
    fsSet fs k e k = some e := by
  simp [fsSet]

/-- Writing a path leaves every other path unchanged. -/
theorem fsSet_ne (fs : FS) (k k' : String × String) (e : Entry)
    (h : k' ≠ k) : fsSet fs k e k' = fs k' := by
  simp [fsSet, h]

/-- A truthful asset descriptor is skipped against the very bytes its
locator serves: the Identity Comparator settles after one honest fetch. -/
theorem assetDecision_of_good (hash : List Nat → String) (a : RAsset)
    (hg : assetGood hash a = true) :
    assetDecision hash a.asset (some (Entry.file a.content)) = .ok .skip := by
  cases hd : a.asset.digest with
  | none =>
    simp only [assetGood, hd] at hg
    have hsz : a.asset.size = a.content.length := by simpa using hg
    simp [assetDecision, hd, entrySize, hsz]
  | some d =>
    simp only [assetGood, hd] at hg
    have hspl : splitColon d = ["sha256", hash a.content] := by simpa using hg
    simp [assetDecision, hd, hspl, shasum]

/-- The asset loop writes only paths of its own release tag bearing one of
its asset names. -/
theorem runAssets_frame (hash : List Nat → String) (tag : String) :
    ∀ (as : List RAsset) (fs : FS) (c : Nat) (fs' : FS) (c' : Nat),
    runAssets hash tag as fs c = .ok (fs', c') →
    ∀ k : String × String,
      k.1 ≠ tag ∨ k.2 ∉ as.map (fun a => a.asset.name) → fs' k = fs k := by
  intro as
  induction as with
  | nil =>
    intro fs c fs' c' h k _
    simp only [runAssets, Except.ok.injEq, Prod.mk.injEq] at h
    rw [← h.1]
  | cons a rest ih =>
    intro fs c fs' c' h k hk
    have hk' : k.1 ≠ tag ∨ k.2 ∉ rest.map (fun a => a.asset.name) := by
      rcases hk with h1 | h2
      · exact Or.inl h1
      · refine Or.inr fun hmem => h2 ?_
        simp only [List.map_cons, List.mem_cons]
        exact Or.inr hmem
    cases hdec : assetDecision hash a.asset (fs (tag, a.asset.name)) with
    | error e =>
      simp only [runAssets, hdec] at h
      exact Except.noConfusion h
    | ok act =>
      cases act with
      | skip =>
        simp only [runAssets, hdec] at h
        exact ih fs c fs' c' h k hk'
      | fetch =>
        simp only [runAssets, hdec] at h
        rw [ih _ _ _ _ h k hk']
        apply fsSet_ne
        rcases hk with h1 | h2
        · intro he; apply h1; rw [he]
        · intro he
          apply h2
          rw [he]
          simp
  
/-- After the asset loop, every path either kept its old entry or holds a
freshly downloaded file. -/
theorem runAssets_preserve (hash : List Nat → String) (tag : String) :
    ∀ (as : List RAsset) (fs : FS) (c : Nat) (fs' : FS) (c' : Nat),
    runAssets hash tag as fs c = .ok (fs', c') →
    ∀ k : String × String,
      fs' k = fs k ∨ ∃ bs, fs' k = some (Entry.file bs) := by
  intro as
  induction as with
  | nil =>
    intro fs c fs' c' h k
    simp only [runAssets, Except.ok.injEq, Prod.mk.injEq] at h
    rw [← h.1]
    exact Or.inl rfl
  | cons a rest ih =>
    intro fs c fs' c' h k
    cases hdec : assetDecision hash a.asset (fs (tag, a.asset.name)) with
    | error e =>
      simp only [runAssets, hdec] at h
      exact Except.noConfusion h
    | ok act =>
      cases act with
      | skip =>
        simp only [runAssets, hdec] at h
        exact ih fs c fs' c' h k
      | fetch =>
        simp only [runAssets, hdec] at h
        rcases ih _ _ _ _ h k with heq | hfile
        · by_cases hkk : k = (tag, a.asset.name)
          · subst hkk
            rw [heq, fsSet_same]
            exact Or.inr ⟨a.content, rfl⟩
          · rw [heq, fsSet_ne _ _ _ _ hkk]
            exact Or.inl rfl
        · exact Or.inr hfile

/-- The asset loop over a settled filesystem is the identity: every decision
is a skip and no fetch is counted. -/
theorem runAssets_settled (hash : List Nat → String) (tag : String) :
    ∀ (as : List RAsset) (fs : FS) (c : Nat),
    (∀ a ∈ as, assetDecision hash a.asset (fs (tag, a.asset.name)) = .ok .skip) →
    runAssets hash tag as fs c = .ok (fs, c) := by
  intro as
  induction as with
  | nil => intro fs c _; rfl
  | cons a rest ih =>
    intro fs c hset
    have hd := hset a (by simp)
    simp only [runAssets, hd]
    exact ih fs c fun b hb => hset b (by simp [hb])

/-- After a successful asset loop over truthful descriptors with distinct
names, the comparator skips every asset of the loop. -/
theorem runAssets_settles (hash : List Nat → String) (tag : String) :
    ∀ (as : List RAsset) (fs : FS) (c : Nat) (fs' : FS) (c' : Nat),
    (as.map (fun a => a.asset.name)).Nodup →
    (∀ a ∈ as, assetGood hash a = true) →
    runAssets hash tag as fs c = .ok (fs', c') →
    ∀ a ∈ as, assetDecision hash a.asset (fs' (tag, a.asset.name)) = .ok .skip := by
  intro as
  induction as with
  | nil => intro fs c fs' c' _ _ _ b hb; simp at hb
  | cons a rest ih =>
    intro fs c fs' c' hnd hg h b hb
    have hnin : a.asset.name ∉ rest.map (fun x => x.asset.name) := by
      have := hnd
      simp only [List.map_cons, List.nodup_cons] at this
      exact this.1
    have hndr : (rest.map (fun x => x.asset.name)).Nodup := by
      have := hnd
      simp only [List.map_cons, List.nodup_cons] at this
      exact this.2
    have hgr : ∀ x ∈ rest, assetGood hash x = true :=
      fun x hx => hg x (by simp [hx])
    cases hdec : assetDecision hash a.asset (fs (tag, a.asset.name)) with
    | error e =>
      simp only [runAssets, hdec] at h
      exact Except.noConfusion h
    | ok act =>
      cases act with
      | skip =>
        simp only [runAssets, hdec] at h
        rcases List.mem_cons.mp hb with rfl | hb'
        · rw [runAssets_frame hash tag rest fs c fs' c' h
            (tag, b.asset.name) (Or.inr hnin)]
          exact hdec
        · exact ih fs c fs' c' hndr hgr h b hb'
      | fetch =>
        simp only [runAssets, hdec] at h
        rcases List.mem_cons.mp hb with rfl | hb'
        · rw [runAssets_frame hash tag rest _ _ fs' c' h
            (tag, b.asset.name) (Or.inr hnin)]
          rw [fsSet_same]
          exact assetDecision_of_good hash b (hg b (by simp))
        · exact ih _ _ fs' c' hndr hgr h b hb'

/-- Processing a release touches only paths under its own tag. -/
theorem runRelease_frame (hash : List Nat → String)
    (mJ mD : RRelease → List Nat) (ds : Bool) (r : RRelease) (fs : FS)
    (c : Nat) (fs' : FS) (c' : Nat)
    (h : runRelease hash mJ mD ds r fs c = .ok (fs', c'))
    (k : String × String) (hk : k.1 ≠ r.tag) : fs' k = fs k := by
  have hkm1 : k ≠ (r.tag, "_release.json") := by
    intro he; apply hk; rw [he]
  have hkm2 : k ≠ (r.tag, "_description.md") := by
    intro he; apply hk; rw [he]
  have hks : k ≠ (r.tag, r.sourceFilename) := by
    intro he; apply hk; rw [he]
  cases ds with
  | false =>
    simp only [runRelease] at h
    rw [runAssets_frame hash r.tag r.assets _ c fs' c' h k (Or.inl hk),
      fsSet_ne _ _ _ _ hkm2, fsSet_ne _ _ _ _ hkm1]
  | true =>
    simp only [runRelease] at h
    cases hsrc : (fsSet (fsSet fs (r.tag, "_release.json")
        (Entry.file (mJ r))) (r.tag, "_description.md") (Entry.file (mD r)))
        (r.tag, r.sourceFilename) with
    | some e0 =>
      rw [hsrc] at h
      rw [runAssets_frame hash r.tag r.assets _ c fs' c' h k (Or.inl hk),
        fsSet_ne _ _ _ _ hkm2, fsSet_ne _ _ _ _ hkm1]
    | none =>
      rw [hsrc] at h
      rw [runAssets_frame hash r.tag r.assets _ (c + 1) fs' c' h k (Or.inl hk),
        fsSet_ne _ _ _ _ hks, fsSet_ne _ _ _ _ hkm2, fsSet_ne _ _ _ _ hkm1]

/-- A successful release run over truthful, distinctly-named assets leaves
the release settled: every asset skips and the source archive (when
requested) is present. -/
theorem runRelease_settles (hash : List Nat → String)
    (mJ mD : RRelease → List Nat) (ds : Bool) (r : RRelease) (fs : FS)
    (c : Nat) (fs' : FS) (c' : Nat)
    (hnd : (r.assets.map (fun a => a.asset.name)).Nodup)
    (hg : ∀ a ∈ r.assets, assetGood hash a = true)
    (h : runRelease hash mJ mD ds r fs c = .ok (fs', c')) :
    SettledRel hash ds fs' r := by
  constructor
  · cases ds with
    | false =>
      simp only [runRelease] at h
      exact runAssets_settles hash r.tag r.assets _ c fs' c' hnd hg h
    | true =>
      simp only [runRelease] at h
      cases hsrc : (fsSet (fsSet fs (r.tag, "_release.json")
          (Entry.file (mJ r))) (r.tag, "_description.md")
          (Entry.file (mD r))) (r.tag, r.sourceFilename) with
      | some e0 =>
        rw [hsrc] at h
        exact runAssets_settles hash r.tag r.assets _ c fs' c' hnd hg h
      | none =>
        rw [hsrc] at h
        exact runAssets_settles hash r.tag r.assets _ (c + 1) fs' c' hnd hg h
  · intro hds
    subst hds
    simp only [runRelease] at h
    cases hsrc : (fsSet (fsSet fs (r.tag, "_release.json")
        (Entry.file (mJ r))) (r.tag, "_description.md")
        (Entry.file (mD r))) (r.tag, r.sourceFilename) with
    | some e0 =>
      rw [hsrc] at h
      rcases runAssets_preserve hash r.tag r.assets _ c fs' c' h
          (r.tag, r.sourceFilename) with heq | ⟨bs, hf⟩
      · rw [heq, hsrc]; rfl
      · rw [hf]; rfl
    | none =>
      rw [hsrc] at h
      rcases runAssets_preserve hash r.tag r.assets _ (c + 1) fs' c' h
          (r.tag, r.sourceFilename) with heq | ⟨bs, hf⟩
      · rw [heq, fsSet_same]; rfl
      · rw [hf]; rfl

/-- A release run over a settled filesystem performs no fetch: it only
rewrites the two metadata files and leaves the count unchanged. -/
theorem runRelease_of_settled (hash : List Nat → String)
    (mJ mD : RRelease → List Nat) (ds : Bool) (r : RRelease) (fs : FS)
    (c : Nat) (hset : SettledRel hash ds fs r)
    (hm : ∀ a ∈ r.assets,
      a.asset.name ≠ "_release.json" ∧ a.asset.name ≠ "_description.md") :
    runRelease hash mJ mD ds r fs c
      = .ok (fsSet (fsSet fs (r.tag, "_release.json") (Entry.file (mJ r)))
          (r.tag, "_description.md") (Entry.file (mD r)), c) := by
  obtain ⟨hassets, hsrc⟩ := hset
  have hfs2 : ∀ a ∈ r.assets,
      (fsSet (fsSet fs (r.tag, "_release.json") (Entry.file (mJ r)))
        (r.tag, "_description.md") (Entry.file (mD r))) (r.tag, a.asset.name)
        = fs (r.tag, a.asset.name) := by
    intro a ha
    rw [fsSet_ne, fsSet_ne]
    · intro he
      exact (hm a ha).1 (congrArg Prod.snd he)
    · intro he
      exact (hm a ha).2 (congrArg Prod.snd he)
  have hskip : ∀ a ∈ r.assets, assetDecision hash a.asset
      ((fsSet (fsSet fs (r.tag, "_release.json") (Entry.file (mJ r)))
        (r.tag, "_description.md") (Entry.file (mD r)))
        (r.tag, a.asset.name)) = .ok .skip := by
    intro a ha
    rw [hfs2 a ha]
    exact hassets a ha
  cases ds with
  | false =>
    simp only [runRelease]
    exact runAssets_settled hash r.tag r.assets _ c hskip
  | true =>
    have hsome : ((fsSet (fsSet fs (r.tag, "_release.json")
        (Entry.file (mJ r))) (r.tag, "_description.md")
        (Entry.file (mD r))) (r.tag, r.sourceFilename)).isSome = true := by
      have h0 := hsrc rfl
      by_cases h1 : (r.tag, r.sourceFilename)
          = ((r.tag, "_description.md") : String × String)
      · rw [h1, fsSet_same]; rfl
      · rw [fsSet_ne _ _ _ _ h1]
        by_cases h2 : (r.tag, r.sourceFilename)
            = ((r.tag, "_release.json") : String × String)
        · rw [h2, fsSet_same]; rfl
        · rw [fsSet_ne _ _ _ _ h2]
          exact h0
    simp only [runRelease]
    cases hsv : (fsSet (fsSet fs (r.tag, "_release.json")
        (Entry.file (mJ r))) (r.tag, "_description.md")
        (Entry.file (mD r))) (r.tag, r.sourceFilename) with
    | none =>
      rw [hsv] at hsome
      simp at hsome
    | some e0 =>
      exact runAssets_settled hash r.tag r.assets _ c hskip

/-- A repository run touches only paths under the tags of its releases. -/
theorem runRepo_frame (hash : List Nat → String)
    (mJ mD : RRelease → List Nat) (ds : Bool) :
    ∀ (rels : List RRelease) (fs : FS) (c : Nat) (fs' : FS) (c' : Nat),
    runRepo hash mJ mD ds rels fs c = .ok (fs', c') →
    ∀ k : String × String, k.1 ∉ rels.map RRelease.tag → fs' k = fs k := by
  intro rels
  induction rels with
  | nil =>
    intro fs c fs' c' h k _
    simp only [runRepo, Except.ok.injEq, Prod.mk.injEq] at h
    rw [← h.1]
  | cons r rest ih =>
    intro fs c fs' c' h k hk
    cases hrel : runRelease hash mJ mD ds r fs c with
    | error e =>
      simp only [runRepo, hrel] at h
      exact Except.noConfusion h
    | ok p =>
      obtain ⟨fsA, cA⟩ := p
      simp only [runRepo, hrel] at h
      have hk1 : k.1 ≠ r.tag := by
        intro he; apply hk; simp [he]
      have hk2 : k.1 ∉ rest.map RRelease.tag := by
        intro he; apply hk; simp [he]
      rw [ih fsA cA fs' c' h k hk2,
        runRelease_frame hash mJ mD ds r fs c fsA cA hrel k hk1]

/-- After a successful repository run over well-formed, truthful remote
state, every release is settled on the resulting filesystem. -/
theorem runRepo_settles (hash : List Nat → String)
    (mJ mD : RRelease → List Nat) (ds : Bool) :
    ∀ (rels : List RRelease) (fs : FS) (c : Nat) (fs' : FS) (c' : Nat),
    (rels.map RRelease.tag).Nodup →
    (∀ r ∈ rels, (r.assets.map (fun a => a.asset.name)).Nodup) →
    (∀ r ∈ rels, ∀ a ∈ r.assets, assetGood hash a = true) →
    runRepo hash mJ mD ds rels fs c = .ok (fs', c') →
    ∀ r ∈ rels, SettledRel hash ds fs' r := by
  intro rels
  induction rels with
  | nil =>
    intro fs c fs' c' _ _ _ _ r hr
    simp at hr
  | cons r0 rest ih =>
    intro fs c fs' c' htags hnames hgood h r hr
    cases hrel : runRelease hash mJ mD ds r0 fs c with
    | error e =>
      simp only [runRepo, hrel] at h
      exact Except.noConfusion h
    | ok p =>
      obtain ⟨fsA, cA⟩ := p
      simp only [runRepo, hrel] at h
      have htag0 : r0.tag ∉ rest.map RRelease.tag := by
        simp only [List.map_cons, List.nodup_cons] at htags
        exact htags.1
      have htrest : (rest.map RRelease.tag).Nodup := by
        simp only [List.map_cons, List.nodup_cons] at htags
        exact htags.2
      rcases List.mem_cons.mp hr with rfl | hr'
      · have hsetA : SettledRel hash ds fsA r :=
          runRelease_settles hash mJ mD ds r fs c fsA cA
            (hnames r (by simp)) (hgood r (by simp)) hrel
        obtain ⟨ha, hs⟩ := hsetA
        constructor
        · intro a haa
          rw [runRepo_frame hash mJ mD ds rest fsA cA fs' c' h
            (r.tag, a.asset.name) htag0]
          exact ha a haa
        · intro hds
          rw [runRepo_frame hash mJ mD ds rest fsA cA fs' c' h
            (r.tag, r.sourceFilename) htag0]
          exact hs hds
      · exact ih fsA cA fs' c' htrest (fun x hx => hnames x (by simp [hx]))
          (fun x hx => hgood x (by simp [hx])) h r hr'

/-- A repository run over a filesystem on which every release is settled
performs zero fetches. -/
theorem runRepo_of_settled (hash : List Nat → String)
    (mJ mD : RRelease → List Nat) (ds : Bool) :
    ∀ (rels : List RRelease) (fs : FS) (c : Nat),
    (rels.map RRelease.tag).Nodup →
    (∀ r ∈ rels, ∀ a ∈ r.assets,
      a.asset.name ≠ "_release.json" ∧ a.asset.name ≠ "_description.md") →
    (∀ r ∈ rels, SettledRel hash ds fs r) →
    ∃ fs', runRepo hash mJ mD ds rels fs c = .ok (fs', c) := by
  intro rels
  induction rels with
  | nil => intro fs c _ _ _; exact ⟨fs, rfl⟩
  | cons r0 rest ih =>
    intro fs c htags hm hset
    have hrel := runRelease_of_settled hash mJ mD ds r0 fs c
      (hset r0 (by simp)) (hm r0 (by simp))
    set fs2 := fsSet (fsSet fs (r0.tag, "_release.json")
        (Entry.file (mJ r0))) (r0.tag, "_description.md")
        (Entry.file (mD r0)) with hfs2def
    have htag0 : r0.tag ∉ rest.map RRelease.tag := by
      simp only [List.map_cons, List.nodup_cons] at htags
      exact htags.1
    have htrest : (rest.map RRelease.tag).Nodup := by
      simp only [List.map_cons, List.nodup_cons] at htags
      exact htags.2
    have hagree : ∀ k : String × String, k.1 ≠ r0.tag → fs2 k = fs k := by
      intro k hk
      rw [hfs2def, fsSet_ne, fsSet_ne]
      · intro he; exact hk (congrArg Prod.fst he)
      · intro he; exact hk (congrArg Prod.fst he)
    have hset2 : ∀ r ∈ rest, SettledRel hash ds fs2 r := by
      intro r hr
      have hne : r.tag ≠ r0.tag := by
        intro he
        apply htag0
        rw [← he]
        exact List.mem_map_of_mem _ hr
      obtain ⟨ha, hs⟩ := hset r (by simp [hr])
      constructor
      · intro a haa
        rw [hagree (r.tag, a.asset.name) hne]
        exact ha a haa
      · intro hds
        rw [hagree (r.tag, r.sourceFilename) hne]
        exact hs hds
    obtain ⟨fs', hrun⟩ := ih fs2 c htrest (fun x hx => hm x (by simp [hx]))
      hset2
    refine ⟨fs', ?_⟩
    simp only [runRepo, hrel]
    exact hrun

/-- Counterexample to C2.  The claim includes assets with
unrecognized-algorithm digests among those for which the second run performs
zero fetches.  Here the remote state (one release, one asset with digest
`md5:00` and served byte `[1]`) is identical for both runs, yet the second
run performs one fetch, because the comparator compares the local SHA-256
digest against the `md5` value and re-downloads on every run. -/
theorem claim2_counterexample :
    runTwice hashModel (fun _ => []) (fun _ => []) false
      [RRelease.mk "v1.0.0" "v1" "notes"
        [RAsset.mk (Asset.mk "widget.bin" 1 "u" (some "md5:00")) [1]]
        "src.tar.gz" [2]]
      (fun _ => none) = .ok (1, 1) := rfl

/-- C2 as amended.  For a repository whose remote state is unchanged between
two consecutive runs, whose release tags and per-release asset names are
distinct, whose asset names do not collide with the two metadata filenames,
and whose asset descriptors are truthful and verifiable — every digest is a
well-formed `sha256:` digest of the served bytes (assets with
unrecognized-algorithm digests are excluded: they are re-fetched on every
run) and every digest-less size is the served length — if the first run
completes, the second run invokes the Fetcher zero times, for any
combination of digest-bearing assets, digest-less assets, and source
archives. -/
theorem claim2_amended (hash : List Nat → String)
    (mJ mD : RRelease → List Nat) (ds : Bool) (rels : List RRelease)
    (fs0 : FS)
    (htags : (rels.map RRelease.tag).Nodup)
    (hnames : ∀ r ∈ rels, (r.assets.map (fun a => a.asset.name)).Nodup)
    (hmeta : ∀ r ∈ rels, ∀ a ∈ r.assets,
      a.asset.name ≠ "_release.json" ∧ a.asset.name ≠ "_description.md")
    (hgood : ∀ r ∈ rels, ∀ a ∈ r.assets, assetGood hash a = true)
    (hok : exceptIsOk (runRepo hash mJ mD ds rels fs0 0) = true) :
    ∃ n1, runTwice hash mJ mD ds rels fs0 = .ok (n1, 0) := by
  cases hrun : runRepo hash mJ mD ds rels fs0 0 with
  | error e =>
    rw [hrun] at hok
    simp [exceptIsOk] at hok
  | ok p =>
    obtain ⟨fs1, n1⟩ := p
    have hsettled : ∀ r ∈ rels, SettledRel hash ds fs1 r :=
      runRepo_settles hash mJ mD ds rels fs0 0 fs1 n1 htags hnames hgood hrun
    obtain ⟨fs2, hrun2⟩ :=
      runRepo_of_settled hash mJ mD ds rels fs1 0 htags hmeta hsettled
    refine ⟨n1, ?_⟩
    simp only [runTwice, hrun, hrun2]

/-- Witness for the amended C2: one release with a truthful `sha256:` asset
and a truthful digest-less asset, plus a source archive, starting from an
empty mirror with source downloading on.  The theorem yields a second-run
fetch count of zero (the first run fetches all three artifacts). -/
theorem claim2_amended_witness :
    ∃ n1, runTwice hashModel (fun _ => [0]) (fun _ => [1]) true
      [RRelease.mk "v1.0.0" "v1" "notes"
        [RAsset.mk (Asset.mk "widget.bin" 5 "u" (some "sha256:218")) [1],
          RAsset.mk (Asset.mk "plain.bin" 2 "u2" none) [5, 6]]
        "src.tar.gz" [2]]
      (fun _ => none) = .ok (n1, 0) :=
  claim2_amended hashModel (fun _ => [0]) (fun _ => [1]) true
    [RRelease.mk "v1.0.0" "v1" "notes"
      [RAsset.mk (Asset.mk "widget.bin" 5 "u" (some "sha256:218")) [1],
        RAsset.mk (Asset.mk "plain.bin" 2 "u2" none) [5, 6]]
      "src.tar.gz" [2]]
    (fun _ => none) (by decide) (by decide) (by decide) (by decide) (by decide)
